import Mathlib

/-!
Verification of the flash-card extraction pipeline in
`app/services/qa_generator.py` (class `QAGenerator`).

The Python code is shallowly embedded: strings are Lean `String`s (in
Lean 4.14 a `String` wraps a `List Char`, matching Python's sequence of
code points), `None`-returning functions become `Option`-valued
functions, and the one place where the code can raise an uncaught
exception (`process_pdf` subscripting a `None` fallback result) is
modelled with `Except Unit`.

Python-specific primitives (`str.split()`, `str.strip()`, `re.split`,
`re.sub`, `str.lower()`, `str.isupper()`, `unicodedata.category`) are
implemented character-by-character below.  Where Python consults full
Unicode tables (`\w`, `lower`, `isupper`, category `C`) the embedding
covers the ASCII and Cyrillic ranges that the program's data actually
uses, as noted at each definition.
-/

set_option maxRecDepth 100000
set_option maxHeartbeats 2000000

namespace QAGen

/-- Python's `\s` / `str.isspace()` set: ASCII whitespace, the C1
whitespace controls, and the Unicode space separators. -/
def isPySpace (c : Char) : Bool :=
  c = ' ' || c = '\t' || c = '\n' || c = '\r' ||
  c.toNat = 0x0b || c.toNat = 0x0c ||
  (0x1c ≤ c.toNat && c.toNat ≤ 0x1f) || c.toNat = 0x85 || c.toNat = 0xa0 ||
  c.toNat = 0x1680 || (0x2000 ≤ c.toNat && c.toNat ≤ 0x200a) ||
  c.toNat = 0x2028 || c.toNat = 0x2029 || c.toNat = 0x202f ||
  c.toNat = 0x205f || c.toNat = 0x3000

/-- Unicode general category `C` (`unicodedata.category(ch)[0] == 'C'`):
control (Cc), format (Cf), surrogate (Cs) and private-use (Co) code
points.  Unassigned code points (Cn) are not enumerated; none of the
proofs below depend on the extent of this set, only on the membership of
the concrete characters that occur. -/
def isCatC (c : Char) : Bool :=
  c.toNat < 0x20 || (0x7f ≤ c.toNat && c.toNat ≤ 0x9f) ||
  c.toNat = 0xad ||
  (0x600 ≤ c.toNat && c.toNat ≤ 0x605) || c.toNat = 0x61c ||
  c.toNat = 0x6dd || c.toNat = 0x70f || c.toNat = 0x8e2 ||
  c.toNat = 0x180e || (0x200b ≤ c.toNat && c.toNat ≤ 0x200f) ||
  (0x202a ≤ c.toNat && c.toNat ≤ 0x202e) ||
  (0x2060 ≤ c.toNat && c.toNat ≤ 0x2064) ||
  (0x2066 ≤ c.toNat && c.toNat ≤ 0x206f) ||
  c.toNat = 0xfeff || (0xfff9 ≤ c.toNat && c.toNat ≤ 0xfffb) ||
  (0xd800 ≤ c.toNat && c.toNat ≤ 0xdfff) ||
  (0xe000 ≤ c.toNat && c.toNat ≤ 0xf8ff) ||
  c.toNat = 0xe0001 || (0xe0020 ≤ c.toNat && c.toNat ≤ 0xe007f) ||
  (0xf0000 ≤ c.toNat)

/-- Characters kept by the first step of `clean_text`:
`unicodedata.category(ch)[0] != 'C' or ch in '\n\t'`. -/
def keepChar (c : Char) : Bool :=
  !(isCatC c) || c = '\n' || c = '\t'

/-- The decorative characters removed by
`re.sub(r'[>~<•»«„"\[\]{}()_\-–—]+', '', text)` (line 32).  Removing
every maximal run of these characters is the same as filtering each of
them out. -/
def isDecor (c : Char) : Bool :=
  c = '>' || c = '~' || c = '<' || c = '•' || c = '»' || c = '«' ||
  c = '„' || c = '\"' || c = '[' || c = ']' || c = '{' || c = '}' ||
  c = '(' || c = ')' || c = '_' || c = '-' || c = '–' || c = '—'

/-- State-machine core of `re.sub(r'\s+', ' ', text)`: the flag records
whether the previously emitted character closed a whitespace run. -/
def collapseWsAux : Bool → List Char → List Char
  | _, [] => []
  | b, c :: r =>
    if isPySpace c then
      if b then collapseWsAux true r else ' ' :: collapseWsAux true r
    else c :: collapseWsAux false r

/-- Python `re.sub(r'\s+', ' ', text)`: replace each maximal whitespace
run by a single space. -/
def collapseWs (l : List Char) : List Char := collapseWsAux false l

/-- Python `str.strip()`: drop whitespace from both ends. -/
def pyStrip (l : List Char) : List Char :=
  ((l.dropWhile isPySpace).reverse.dropWhile isPySpace).reverse

/-- Body of `QAGenerator.clean_text` on the underlying character list
(lines 27-34): empty-input guard, control-character filter, decorative
character removal, whitespace collapse, strip. -/
def cleanTextL (l : List Char) : List Char :=
  if l.isEmpty then []
  else pyStrip (collapseWs ((l.filter keepChar).filter fun c => !(isDecor c)))

/-- Embedding of `QAGenerator.clean_text` (lines 27-34). -/
def clean_text (s : String) : String := String.mk (cleanTextL s.data)

/-- Adjacency relation: no two adjacent whitespace characters. -/
def NoWsPair (a b : Char) : Prop := isPySpace a = false ∨ isPySpace b = false

/-! Python `str.split()` (split on whitespace runs, no empty fragments)
and the two `re.split` patterns used by the pipeline. -/

/-- Accumulator-based core of `str.split()`; `cur` holds the current
word reversed. -/
def pySplitAux : List Char → List Char → List (List Char)
  | cur, [] => if cur.isEmpty then [] else [cur.reverse]
  | cur, c :: r =>
    if isPySpace c then
      if cur.isEmpty then pySplitAux [] r else cur.reverse :: pySplitAux [] r
    else pySplitAux (c :: cur) r

/-- Python `str.split()` with no argument: maximal whitespace-separated
words, never empty. -/
def pySplit (l : List Char) : List (List Char) := pySplitAux [] l

/-- Number of whitespace-separated words, Python `len(s.split())`. -/
def pyWordCount (l : List Char) : Nat := (pySplit l).length

def isSentPunct (c : Char) : Bool := c = '.' || c = '!' || c = '?'

/-- Scanner state for `re.split(r'[.!?]+\s+', text)`: reading a
fragment, inside a punctuation run that may become a separator, or
inside the whitespace tail of a confirmed separator. -/
inductive SentSt
  | norm
  | pnct
  | gap
deriving DecidableEq

/-- State machine for `re.split(r'[.!?]+\s+', text)`; `cur` is the
current fragment reversed, `pbuf` the pending punctuation run reversed.
A punctuation run followed by whitespace is a separator (and is
dropped); a punctuation run not followed by whitespace stays part of
the fragment. -/
def sentWSAux : SentSt → List Char → List Char → List Char → List (List Char)
  | .norm, cur, _, [] => [cur.reverse]
  | .pnct, cur, pbuf, [] => [(pbuf ++ cur).reverse]
  | .gap, _, _, [] => [[]]
  | .norm, cur, pbuf, c :: r =>
    if isSentPunct c then sentWSAux .pnct cur [c] r
    else sentWSAux .norm (c :: cur) pbuf r
  | .pnct, cur, pbuf, c :: r =>
    if isSentPunct c then sentWSAux .pnct cur (c :: pbuf) r
    else if isPySpace c then cur.reverse :: sentWSAux .gap [] [] r
    else sentWSAux .norm (c :: (pbuf ++ cur)) [] r
  | .gap, _, _, c :: r =>
    if isPySpace c then sentWSAux .gap [] [] r
    else if isSentPunct c then sentWSAux .pnct [] [c] r
    else sentWSAux .norm [c] [] r

/-- Python `re.split(r'[.!?]+\s+', text)` (line 104). -/
def reSplitSentGap (l : List Char) : List (List Char) :=
  sentWSAux .norm [] [] l

/-- State machine for `re.split(r'[.!?]+', text)`: the flag records
being inside a punctuation run (which is always a separator here). -/
def sentOnlyAux : Bool → List Char → List Char → List (List Char)
  | false, cur, [] => [cur.reverse]
  | true, _, [] => [[]]
  | false, cur, c :: r =>
    if isSentPunct c then cur.reverse :: sentOnlyAux true [] r
    else sentOnlyAux false (c :: cur) r
  | true, cur, c :: r =>
    if isSentPunct c then sentOnlyAux true cur r
    else sentOnlyAux false [c] r

/-- Python `re.split(r'[.!?]+', text)` (lines 149, 195). -/
def reSplitSent (l : List Char) : List (List Char) :=
  sentOnlyAux false [] l

/-! The chunk segmenter `_split_into_chunks` (lines 99-134). -/

/-- A candidate text chunk: `{"text": ..., "page": ..., "word_count": ...}`. -/
structure TextChunk where
  text : String
  page : Nat
  word_count : Nat
deriving Repr, DecidableEq

/-- The accumulation loop of `_split_into_chunks` (lines 107-123):
skip fragments shorter than 5 characters after stripping, append
`sent + ". "` to the accumulator, emit the stripped accumulator once it
holds at least 12 words, and emit any non-empty stripped remainder. -/
def accumChunks : List (List Char) → List Char → List (List Char)
  | [], current =>
    if (pyStrip current).isEmpty then [] else [pyStrip current]
  | s :: rest, current =>
    let sent := pyStrip s
    if sent.isEmpty || sent.length < 5 then accumChunks rest current
    else
      let cur2 := current ++ sent ++ ['.', ' ']
      if 12 ≤ pyWordCount cur2 then pyStrip cur2 :: accumChunks rest []
      else accumChunks rest cur2

/-- Embedding of `QAGenerator._split_into_chunks` (lines 99-134): sentence split,
accumulation, and the final drop of chunks of at most 50 characters.
Every produced chunk records `page := 0` (line 130) and
`word_count := len(chunk_text.split())`. -/
def _split_into_chunks (text : String) : List TextChunk :=
  (accumChunks (reSplitSentGap text.data) []).filterMap fun t =>
    if 50 < t.length then
      some { text := String.mk t, page := 0, word_count := pyWordCount t }
    else none

/-! The two QA synthesizers (lines 136-222).  Python's Unicode-table
primitives are modelled over the ASCII and Cyrillic ranges, the only
scripts this program's literals and data use. -/

/-- Python `str.lower()` restricted to ASCII and Cyrillic letters. -/
def pyLower (c : Char) : Char :=
  if 'A' ≤ c ∧ c ≤ 'Z' then Char.ofNat (c.toNat + 32)
  else if 0x410 ≤ c.toNat ∧ c.toNat ≤ 0x42f then Char.ofNat (c.toNat + 32)
  else if c.toNat = 0x401 then Char.ofNat 0x451
  else c

def pyLowerL (l : List Char) : List Char := l.map pyLower

/-- Python `str.isupper()` on a single character, restricted to ASCII
and Cyrillic letters. -/
def pyIsUpper (c : Char) : Bool :=
  ('A' ≤ c && c ≤ 'Z') || (0x410 ≤ c.toNat && c.toNat ≤ 0x42f) || c.toNat = 0x401

/-- Python `\w` (letters, digits, underscore) restricted to ASCII plus
the Cyrillic block. -/
def isWordChar (c : Char) : Bool :=
  c.isAlphanum || c = '_' || (0x400 ≤ c.toNat && c.toNat ≤ 0x4ff)

/-- Core of `re.sub(r'\b\d{1,3}\b', '', s)`: `prevW` is whether the
character before the current position is a word character, `buf` holds
(reversed) a pending maximal digit run that started at a word boundary.
A pending run of length at most 3 that ends at a word boundary is
deleted; any other run is kept. -/
def rsnAux : Bool → List Char → List Char → List Char
  | _, buf, [] => if !buf.isEmpty && buf.length ≤ 3 then [] else buf.reverse
  | prevW, buf, c :: r =>
    if c.isDigit then
      if !buf.isEmpty then rsnAux prevW (c :: buf) r
      else if prevW then c :: rsnAux true [] r
      else rsnAux false [c] r
    else
      if !buf.isEmpty then
        if buf.length ≤ 3 && !(isWordChar c) then c :: rsnAux (isWordChar c) [] r
        else buf.reverse ++ c :: rsnAux (isWordChar c) [] r
      else c :: rsnAux (isWordChar c) [] r

/-- Python `re.sub(r'\b\d{1,3}\b', '', s)` (line 142). -/
def removeSmallNums (l : List Char) : List Char := rsnAux false [] l

/-- Python's substring containment `pat in s`. -/
def pyInStr (pat l : List Char) : Bool :=
  l.tails.any fun t => pat.isPrefixOf t

/-- The fully cleaned prefix computed by `generate_qa_pair_rut5`
(lines 139-143): clean the 500-character prefix, strip standalone 1-3
digit numbers, re-collapse whitespace, strip. -/
def primaryCleanL (context : String) : List Char :=
  pyStrip (collapseWs (removeSmallNums (cleanTextL (context.data.take 500))))

/-- The stop words excluded from key-term selection (lines 164-166). -/
def ruStopWords : List (List Char) :=
  ["где".data, "когда".data, "какой".data, "какая".data, "какие".data,
   "это".data, "эта".data]

/-- A question/answer/context triple as returned by either synthesizer. -/
structure QAPair where
  question : String
  answer : String
  context : String
deriving Repr, DecidableEq

/-- Embedding of `QAGenerator.generate_qa_pair_rut5` (lines 136-187).  The body can
raise no exception, so the `try/except` that returns `None` is dead and
the function is a total `Option`-valued map. -/
def generate_qa_pair_rut5 (context : String) : Option QAPair :=
  let cc := primaryCleanL context
  if cc.length < 60 then none
  else
    let sentences := (reSplitSent cc).map pyStrip
    let long_sentences := sentences.filter fun s => 8 ≤ (pySplit s).length
    match long_sentences with
    | [] => none
    | sentence :: _ =>
      let words := (pySplit sentence).filter fun w => 3 < w.length
      if words.length < 5 then none
      else
        let important_words := (words.filter fun w =>
          (match w with | [] => false | c :: _ => pyIsUpper c) &&
          !(ruStopWords.contains (pyLowerL w))).map pyLowerL
        match important_words with
        | [] => none
        | key_term :: _ =>
          let question := "Объясните, что такое ".data ++ (key_term ++ ['?'])
          let answer := sentence
          if 15 < question.length ∧ 50 < answer.length ∧
              pyInStr key_term (pyLowerL answer) = true then
            some { question := String.mk question, answer := String.mk answer,
                   context := String.mk (cc.take 150) }
          else none

/-- Embedding of `QAGenerator.create_quality_fallback` (lines 189-222).  As with the
primary synthesizer, the body cannot raise, so the bare `except` that
returns `None` is dead. -/
def create_quality_fallback (context : String) : Option QAPair :=
  let cc := cleanTextL (context.data.take 500)
  let sentences := ((reSplitSent cc).map pyStrip).filter fun s => 50 < s.length
  match sentences with
  | [] => none
  | sentence :: _ =>
    let words := pySplit sentence
    if words.length < 7 then none
    else
      let topic := pyLowerL (List.intercalate [' '] (words.take 2))
      let question := "Объясните, что произойдёт, если ".data ++ (topic ++ ['?'])
      let answer := sentence
      if 40 < answer.length then
        some { question := String.mk question, answer := String.mk answer,
               context := String.mk (cc.take 120) }
      else none

/-! The extractor `extract_meaningful_text` (lines 60-97) and the
orchestrator `process_pdf` (lines 224-268).  The pdfplumber call is the
external boundary: a document is either unreadable (`Except.error`,
the `except` branch of lines 95-97) or a list of per-page extracted
texts, with `""` standing for a page whose `extract_text()` yielded
nothing (the code treats `None` and `""` identically via
`if not raw_text`). -/

/-- Scan for the first occurrence of `"Colab"` not preceded by a
newline (the lazy `.*?` of the banner pattern cannot cross `'\n'`) and
return the suffix after it. -/
def findAfterColab : List Char → Option (List Char)
  | [] => none
  | c :: r =>
    if "Colab".data.isPrefixOf (c :: r) then some (List.drop 5 (c :: r))
    else if c = '\n' then none
    else findAfterColab r

/-- Python `re.sub(r'^\d{2}\.\d{2}\.\d{4}.*?Colab\s*', '', text)`
(line 77): anchored at the string start, so it fires at most once. -/
def removeDateBanner (l : List Char) : List Char :=
  match l with
  | d1 :: d2 :: p1 :: d3 :: d4 :: p2 :: y1 :: y2 :: y3 :: y4 :: rest =>
    if d1.isDigit && d2.isDigit && p1 = '.' && d3.isDigit && d4.isDigit &&
        p2 = '.' && y1.isDigit && y2.isDigit && y3.isDigit && y4.isDigit then
      match findAfterColab rest with
      | some suffix => suffix.dropWhile isPySpace
      | none => l
    else l
  | _ => l

/-- Python `re.sub(r'https?://[^\\s]+', '', text)` (line 78), with an
explicit fuel argument for termination: each step either keeps one
character and recurses on the tail, or removes a whole URL (at least
8 characters) and recurses on the strictly shorter remainder, so with
`fuel = l.length` (as `removeUrls` passes) the fuel never runs out and
the `0` branch is unreachable. -/
def removeUrlsAux : Nat → List Char → List Char
  | 0, l => l
  | _ + 1, [] => []
  | fuel + 1, c :: r =>
    if "https://".data.isPrefixOf (c :: r) then
      let rest := List.drop 8 (c :: r)
      if (rest.takeWhile fun x => !(isPySpace x)).isEmpty then c :: removeUrlsAux fuel r
      else removeUrlsAux fuel (rest.dropWhile fun x => !(isPySpace x))
    else if "http://".data.isPrefixOf (c :: r) then
      let rest := List.drop 7 (c :: r)
      if (rest.takeWhile fun x => !(isPySpace x)).isEmpty then c :: removeUrlsAux fuel r
      else removeUrlsAux fuel (rest.dropWhile fun x => !(isPySpace x))
    else c :: removeUrlsAux fuel r

/-- Delete every `http(s)://`-plus-non-whitespace-run occurrence. -/
def removeUrls (l : List Char) : List Char := removeUrlsAux l.length l

/-- Case-insensitive prefix test (for the `re.IGNORECASE` pattern of
line 79). -/
def ciStartsWith (pat l : List Char) : Bool :=
  (pat.map pyLower).isPrefixOf ((l.take pat.length).map pyLower)

/-- Scan for the first case-insensitive occurrence of `pat` not
preceded by a newline; return the suffix after it. -/
def findCIAfter (pat : List Char) : List Char → Option (List Char)
  | [] => none
  | c :: r =>
    if ciStartsWith pat (c :: r) then some (List.drop pat.length (c :: r))
    else if c = '\n' then none
    else findCIAfter pat r

/-- Four leading decimal digits (`\d{4}`), returning the rest. -/
def take4Digits : List Char → Option (List Char)
  | a :: b :: d :: e :: rest =>
    if a.isDigit && b.isDigit && d.isDigit && e.isDigit then some rest else none
  | _ => none

/-- Python `re.sub(r'\\d{4}.*?ipynb.*?Colab', '', text, flags=re.IGNORECASE)`
(line 79).  A match is four digits, then (lazily, without crossing a
newline) `ipynb`, then `Colab`, case-insensitively; the matched span is
removed and scanning resumes after it.  Fuel argument as in
`removeUrlsAux`: every step shortens the list (by `take4Digits_length`
and `findCIAfter_length_le` a removed span is at least 14 characters
long), so with `fuel = l.length` the `0` branch is unreachable. -/
def removeIpynbColabAux : Nat → List Char → List Char
  | 0, l => l
  | _ + 1, [] => []
  | fuel + 1, c :: r =>
    match take4Digits (c :: r) with
    | some rest2 =>
      match findCIAfter "ipynb".data rest2 with
      | some s1 =>
        match findCIAfter "Colab".data s1 with
        | some s2 => removeIpynbColabAux fuel s2
        | none => c :: removeIpynbColabAux fuel r
      | none => c :: removeIpynbColabAux fuel r
    | none => c :: removeIpynbColabAux fuel r

/-- Python `re.sub(r'\\d{4}.*?ipynb.*?Colab', '', text, flags=re.IGNORECASE)`. -/
def removeIpynbColab (l : List Char) : List Char := removeIpynbColabAux l.length l

/-- The noise markers of lines 89-91; a chunk containing any of them
(lower-cased) is dropped. -/
def badMarkers : List (List Char) :=
  ["ipynb".data, "colab".data, "http".data, "©".data, "®".data]

/-- Per-page body of the extraction loop (lines 67-86).  After
`clean_text` the page text contains no newline (all whitespace was
collapsed to single spaces), so the `'\n'` split yields the whole text
as its sole paragraph; the split is nevertheless modelled faithfully. -/
def pageChunks (raw : String) : List TextChunk :=
  if raw.data.isEmpty then []
  else
    let text := clean_text raw
    if text.length < 100 then []
    else
      let t3 := removeIpynbColab (removeUrls (removeDateBanner text.data))
      let paragraphs := ((t3.splitOn '\n').map pyStrip).filter fun p => 50 < p.length
      paragraphs.flatMap fun para => _split_into_chunks (String.mk para)

/-- Embedding of `QAGenerator.extract_meaningful_text` (lines 60-97): on an
unreadable document the `except` branch returns `[]`; otherwise collect
per-page chunks and drop chunks containing a noise marker. -/
def extract_meaningful_text (doc : Except Unit (List String)) : List TextChunk :=
  match doc with
  | .error _ => []
  | .ok pages =>
    (pages.flatMap pageChunks).filter fun c =>
      !(badMarkers.any fun b => pyInStr b (pyLowerL c.text.data))

/-- A finished flashcard (lines 246-252). -/
structure Flashcard where
  id : Nat
  question : String
  answer : String
  context : String
  source : String
deriving Repr, DecidableEq

/-- Flashcard assembly (lines 246-252 and 257-263): 1-based id from the
current accumulator length and source label from the chunk's page. -/
def mkFlashcard (n : Nat) (qa : QAPair) (c : TextChunk) : Flashcard :=
  { id := n, question := qa.question, answer := qa.answer,
    context := qa.context, source := "Page " ++ toString c.page }

/-- Sort key of line 236: `abs(x['word_count'] - 25)`. -/
def chunkKey (c : TextChunk) : Nat := ((c.word_count : Int) - 25).natAbs

/-- Line 236, `chunks.sort(key=lambda x: abs(x['word_count'] - 25))`:
Python's `list.sort` is a stable sort by the key.  A stable sort by a
key is extensionally unique, so it is modelled with the stable
structural `List.insertionSort` (each element is inserted before the
first element of greater-or-equal key, keeping original order on
ties). -/
def rankChunks (l : List TextChunk) : List TextChunk :=
  l.insertionSort fun a b => chunkKey a ≤ chunkKey b

/-- The candidate loop of lines 239-265.  The primary branch checks
`if qa_pair:` before use, but the fallback branch subscripts
`fallback_qa["question"]` unconditionally: a `None` fallback result
raises `TypeError`, modelled as `Except.error ()`. -/
def processChunks : List TextChunk → Nat → List Flashcard → Except Unit (List Flashcard)
  | [], _, acc => .ok acc
  | c :: rest, maxCards, acc =>
    if maxCards ≤ acc.length then .ok acc
    else
      match generate_qa_pair_rut5 c.text with
      | some qa => processChunks rest maxCards (acc ++ [mkFlashcard (acc.length + 1) qa c])
      | none =>
        match create_quality_fallback c.text with
        | some qa => processChunks rest maxCards (acc ++ [mkFlashcard (acc.length + 1) qa c])
        | none => .error ()

deriving instance DecidableEq for Except

/-- Embedding of `QAGenerator.process_pdf` (lines 224-268). -/
def process_pdf (doc : Except Unit (List String)) (max_cards : Nat) :
    Except Unit (List Flashcard) :=
  let chunks := extract_meaningful_text doc
  if chunks.isEmpty then .ok []
  else processChunks ((rankChunks chunks).take (max_cards * 2)) max_cards []

/-- Recursive right-strip, used as a proof-friendly description of the
trailing-whitespace removal inside `pyStrip`. -/
def stripRightRec : List Char → List Char
  | [] => []
  | c :: r =>
    let s := stripRightRec r
    if s.isEmpty then (if isPySpace c then [] else [c]) else c :: s

/-! Concrete documents used as witnesses and counterexamples. -/

/-- A one-page document whose second chunk defeats both synthesizers:
its only long sentence has six words (primary needs 8, fallback 7) yet
exceeds 50 characters (so the fallback selects and then rejects it). -/
def crashPage : String :=
  "alpha beta gamma delta epsilon zeta etaa theta iota kappa lambdaa muuu. aaaaaaaaa bbbbbbbbb ccccccccc ddddddddd eeeeeeeee fffffffff"

/-- The chunk of `crashPage` on which both synthesizers return `none`. -/
def crashChunkText : String :=
  "aaaaaaaaa bbbbbbbbb ccccccccc ddddddddd eeeeeeeee fffffffff."

def pageA : String :=
  "machine learning systems process large amounts of data efficiently and reliably today across many domains quickly"

def pageB : String :=
  "neural networks transform input signals into useful output values through layered computations applied repeatedly over time"

/-- First flashcard `process_pdf` produces for `[pageA, pageB]`. -/
def cardA : Flashcard :=
  { id := 1,
    question := "Объясните, что произойдёт, если machine learning?",
    answer := "machine learning systems process large amounts of data efficiently and reliably today across many domains quickly",
    context := "machine learning systems process large amounts of data efficiently and reliably today across many domains quickly.",
    source := "Page 0" }

/-- Second flashcard `process_pdf` produces for `[pageA, pageB]`. -/
def cardB : Flashcard :=
  { id := 2,
    question := "Объясните, что произойдёт, если neural networks?",
    answer := "neural networks transform input signals into useful output values through layered computations applied repeatedly over time",
    context := "neural networks transform input signals into useful output values through layered computations applied repeatedly over t",
    source := "Page 0" }

/-- The two flashcards `process_pdf` produces for the two-page document
`[pageA, pageB]` (both via the fallback synthesizer). -/
def cardsAB : List Flashcard := [cardA, cardB]

/-- A one-page document whose single chunk contains the token
`import`. -/
def importPage : String :=
  "The import Statement module provides functionality for loading other modules dynamically into the runtime environment today"

/-- A chunk text containing the token `import` on which the primary
synthesizer succeeds. -/
def importChunkText : String :=
  "The import Statement module provides functionality for loading other modules dynamically."

/-- A chunk text on which the primary synthesizer succeeds but whose
cleaned context drops the standalone number `25`, so the returned
context matches no prefix of the chunk text. -/
def gradChunkText : String :=
  "Gradient 25 descent optimizes parameters iteratively using small careful steps always converging smoothly."

/-- The pair the primary synthesizer returns for `gradChunkText`. -/
def gradQa : QAPair :=
  { question := "Объясните, что такое gradient?",
    answer := "Gradient descent optimizes parameters iteratively using small careful steps always converging smoothly",
    context := "Gradient descent optimizes parameters iteratively using small careful steps always converging smoothly." }

/-- The pair the fallback synthesizer returns for `pageA`. -/
def mlQa : QAPair :=
  { question := "Объясните, что произойдёт, если machine learning?",
    answer := "machine learning systems process large amounts of data efficiently and reliably today across many domains quickly",
    context := "machine learning systems process large amounts of data efficiently and reliably today across many domains quickly" }

/-! Lemmas towards idempotence of `clean_text`. -/

lemma noWsPair_symm {a b : Char} (h : NoWsPair a b) : NoWsPair b a := h.symm

lemma collapseWsAux_cons (b : Bool) (c : Char) (r : List Char) :
    collapseWsAux b (c :: r) =
      if isPySpace c then
        if b then collapseWsAux true r else ' ' :: collapseWsAux true r
      else c :: collapseWsAux false r := rfl

lemma mem_collapseWsAux {c : Char} :
    ∀ (b : Bool) (l : List Char), c ∈ collapseWsAux b l → c = ' ' ∨ c ∈ l := by
  intro b l
  induction l generalizing b with
  | nil => intro h; exact absurd h (List.not_mem_nil c)
  | cons d r ih =>
    intro h
    rw [collapseWsAux_cons] at h
    by_cases hd : isPySpace d
    · rw [if_pos hd] at h
      cases b with
      | true =>
        rw [if_pos rfl] at h
        rcases ih true h with h1 | h2
        · exact Or.inl h1
        · exact Or.inr (List.mem_cons_of_mem d h2)
      | false =>
        rw [if_neg (by simp)] at h
        rcases List.mem_cons.mp h with h1 | h2
        · exact Or.inl h1
        · rcases ih true h2 with h3 | h4
          · exact Or.inl h3
          · exact Or.inr (List.mem_cons_of_mem d h4)
    · rw [if_neg hd] at h
      rcases List.mem_cons.mp h with h1 | h2
      · exact Or.inr (h1 ▸ List.mem_cons_self d r)
      · rcases ih false h2 with h3 | h4
        · exact Or.inl h3
        · exact Or.inr (List.mem_cons_of_mem d h4)

lemma spaceOnly_collapseWsAux {c : Char} :
    ∀ (b : Bool) (l : List Char),
      c ∈ collapseWsAux b l → isPySpace c = true → c = ' ' := by
  intro b l
  induction l generalizing b with
  | nil => intro h; exact absurd h (List.not_mem_nil c)
  | cons d r ih =>
    intro h hc
    rw [collapseWsAux_cons] at h
    by_cases hd : isPySpace d
    · rw [if_pos hd] at h
      cases b with
      | true => rw [if_pos rfl] at h; exact ih true h hc
      | false =>
        rw [if_neg (by simp)] at h
        rcases List.mem_cons.mp h with h1 | h2
        · exact h1
        · exact ih true h2 hc
    · rw [if_neg hd] at h
      rcases List.mem_cons.mp h with h1 | h2
      · rw [h1] at hc; simp [hd] at hc
      · exact ih false h2 hc

lemma chain_head_collapseWsAux :
    ∀ (b : Bool) (l : List Char),
      List.Chain' NoWsPair (collapseWsAux b l) ∧
      (b = true → ∀ c, (collapseWsAux b l).head? = some c → isPySpace c = false) := by
  intro b l
  induction l generalizing b with
  | nil =>
    refine ⟨List.chain'_nil, ?_⟩
    intro _ c h
    simp only [collapseWsAux, List.head?_nil] at h
    cases h
  | cons d r ih =>
    by_cases hd : isPySpace d
    · cases b with
      | true =>
        have h1 := ih true
        constructor
        · rw [collapseWsAux_cons, if_pos hd, if_pos rfl]
          exact h1.1
        · intro _ c hc
          rw [collapseWsAux_cons, if_pos hd, if_pos rfl] at hc
          exact h1.2 rfl c hc
      | false =>
        have h1 := ih true
        constructor
        · rw [collapseWsAux_cons, if_pos hd, if_neg (by simp)]
          refine List.chain'_cons'.mpr ⟨?_, h1.1⟩
          intro y hy
          exact Or.inr (h1.2 rfl y hy)
        · intro hbt; cases hbt
    · have h1 := ih false
      constructor
      · rw [collapseWsAux_cons, if_neg hd]
        refine List.chain'_cons'.mpr ⟨?_, h1.1⟩
        intro y _
        exact Or.inl (by simpa using hd)
      · intro _ c hc
        rw [collapseWsAux_cons, if_neg hd, List.head?_cons] at hc
        cases hc
        simpa using hd

lemma collapseWsAux_eq_self :
    ∀ (l : List Char) (b : Bool),
      (∀ c ∈ l, isPySpace c = true → c = ' ') →
      List.Chain' NoWsPair l →
      (b = true → ∀ c, l.head? = some c → isPySpace c = false) →
      collapseWsAux b l = l := by
  intro l
  induction l with
  | nil => intro b _ _ _; rfl
  | cons d r ih =>
    intro b hsp hch hhd
    by_cases hd : isPySpace d
    · have hd' : d = ' ' := hsp d (List.mem_cons_self d r) hd
      cases b with
      | true =>
        exact absurd hd (by simp [hhd rfl d List.head?_cons])
      | false =>
        rw [collapseWsAux_cons, if_pos hd, if_neg (by simp), hd']
        congr 1
        refine ih true (fun c hc h => hsp c (List.mem_cons_of_mem d hc) h)
          (List.chain'_cons'.mp hch).2 ?_
        intro _ c hc
        rcases (List.chain'_cons'.mp hch).1 c hc with h1 | h2
        · rw [hd'] at h1; simp [isPySpace] at h1
        · exact h2
    · rw [collapseWsAux_cons, if_neg hd]
      congr 1
      exact ih false (fun c hc h => hsp c (List.mem_cons_of_mem d hc) h)
        (List.chain'_cons'.mp hch).2 (by intro h; cases h)

lemma mem_pyStrip {c : Char} {l : List Char} (h : c ∈ pyStrip l) : c ∈ l := by
  unfold pyStrip at h
  rw [List.mem_reverse] at h
  have h2 := (List.dropWhile_sublist (l := (l.dropWhile isPySpace).reverse) isPySpace).subset h
  rw [List.mem_reverse] at h2
  exact (List.dropWhile_sublist (l := l) isPySpace).subset h2

lemma chain_mono_rev {l : List Char} (h : List.Chain' NoWsPair l) :
    List.Chain' NoWsPair l.reverse := by
  rw [List.chain'_reverse]
  exact h.imp fun _ _ hab => noWsPair_symm hab

lemma chain_pyStrip {l : List Char} (h : List.Chain' NoWsPair l) :
    List.Chain' NoWsPair (pyStrip l) := by
  unfold pyStrip
  refine chain_mono_rev ((chain_mono_rev (h.suffix (List.dropWhile_suffix _))).suffix
    (List.dropWhile_suffix _))

lemma dropWhile_dropWhile (p : Char → Bool) :
    ∀ l : List Char, List.dropWhile p (List.dropWhile p l) = List.dropWhile p l := by
  intro l
  induction l with
  | nil => rfl
  | cons d r ih =>
    by_cases hd : p d
    · simp [List.dropWhile_cons, hd, ih]
    · simp [List.dropWhile_cons, hd]

lemma head_dropWhile_false (p : Char → Bool) :
    ∀ (l : List Char) (c : Char), (List.dropWhile p l).head? = some c → p c = false := by
  intro l
  induction l with
  | nil => intro c h; simp [List.dropWhile] at h
  | cons d r ih =>
    intro c h
    by_cases hd : p d
    · exact ih c (by simpa [List.dropWhile_cons, hd] using h)
    · simp only [List.dropWhile_cons, hd, if_false, List.head?_cons] at h
      cases h
      simpa using hd

lemma dropWhile_eq_self_of_head (p : Char → Bool) (l : List Char)
    (h : ∀ c, l.head? = some c → p c = false) : List.dropWhile p l = l := by
  cases l with
  | nil => rfl
  | cons d r =>
    have := h d List.head?_cons
    simp [List.dropWhile_cons, this]

lemma getLast_suffix_eq {l t : List Char} (h : l <:+ t) (hne : l ≠ []) :
    l.getLast? = t.getLast? := by
  rcases h with ⟨u, rfl⟩
  exact (List.getLast?_append_of_ne_nil u hne).symm

lemma pyStrip_idem (l : List Char) : pyStrip (pyStrip l) = pyStrip l := by
  set a := l.dropWhile isPySpace with ha
  set b := a.reverse.dropWhile isPySpace with hb
  have hstep1 : List.dropWhile isPySpace b.reverse = b.reverse := by
    refine dropWhile_eq_self_of_head _ _ ?_
    intro c hc
    cases hbe : b with
    | nil => rw [hbe] at hc; simp at hc
    | cons x xs =>
      have hbne : b ≠ [] := by rw [hbe]; exact List.cons_ne_nil x xs
      have hlast : b.getLast? = a.reverse.getLast? :=
        getLast_suffix_eq (hb ▸ List.dropWhile_suffix isPySpace) hbne
      have hrev : b.reverse.head? = b.getLast? := by
        rw [List.head?_reverse]
      have hrev2 : a.reverse.getLast? = a.head? := by
        rw [List.getLast?_reverse]
      rw [hrev, hlast, hrev2] at hc
      exact head_dropWhile_false isPySpace l c (ha ▸ hc)
  show ((List.dropWhile isPySpace b.reverse).reverse.dropWhile isPySpace).reverse = b.reverse
  rw [hstep1, List.reverse_reverse, dropWhile_dropWhile]

lemma cleanTextL_chars {c : Char} {l : List Char} (h : c ∈ cleanTextL l) :
    (keepChar c = true ∧ isDecor c = false) ∧ (isPySpace c = true → c = ' ') := by
  unfold cleanTextL at h
  by_cases hl : l.isEmpty
  · simp [hl] at h
  · simp only [hl, if_false] at h
    have h1 := mem_pyStrip h
    have hsp : isPySpace c = true → c = ' ' := spaceOnly_collapseWsAux false _ h1
    rcases mem_collapseWsAux false _ h1 with hc | hc
    · subst hc
      exact ⟨⟨by decide, by decide⟩, fun _ => rfl⟩
    · rw [List.mem_filter] at hc
      rcases hc with ⟨hc2, hdec⟩
      rw [List.mem_filter] at hc2
      exact ⟨⟨hc2.2, by simpa using hdec⟩, hsp⟩

lemma cleanTextL_chain (l : List Char) : List.Chain' NoWsPair (cleanTextL l) := by
  unfold cleanTextL
  by_cases hl : l.isEmpty
  · simp [hl]
  · simp only [hl, if_false]
    exact chain_pyStrip (chain_head_collapseWsAux false _).1

lemma cleanTextL_idem (l : List Char) : cleanTextL (cleanTextL l) = cleanTextL l := by
  by_cases hr : (cleanTextL l).isEmpty
  · rw [List.isEmpty_iff] at hr
    rw [hr]
    rfl
  · have hchars := fun c (hc : c ∈ cleanTextL l) => cleanTextL_chars hc
    have hfilter1 : (cleanTextL l).filter keepChar = cleanTextL l :=
      List.filter_eq_self.mpr fun c hc => (hchars c hc).1.1
    have hfilter2 : (cleanTextL l).filter (fun c => !(isDecor c)) = cleanTextL l :=
      List.filter_eq_self.mpr fun c hc => by
        rw [(hchars c hc).1.2]; rfl
    have hcollapse : collapseWs (cleanTextL l) = cleanTextL l :=
      collapseWsAux_eq_self _ false (fun c hc => (hchars c hc).2)
        (cleanTextL_chain l) (by intro h; cases h)
    have hstrip : pyStrip (cleanTextL l) = cleanTextL l := by
      by_cases hl : l.isEmpty
      · exfalso
        apply hr
        unfold cleanTextL
        rw [if_pos hl]
        rfl
      · conv_lhs => rw [cleanTextL, if_neg hl]
        conv_rhs => rw [cleanTextL, if_neg hl]
        exact pyStrip_idem _
    conv_lhs => rw [cleanTextL]
    rw [if_neg hr, hfilter1, hfilter2]
    show pyStrip (collapseWs (cleanTextL l)) = cleanTextL l
    rw [hcollapse, hstrip]

/-- C6: the normalizer `clean_text` is idempotent:
`clean_text(clean_text(s)) == clean_text(s)` for every string `s`. -/
theorem clean_text_idempotent (s : String) :
    clean_text (clean_text s) = clean_text s := by
  show String.mk (cleanTextL (String.mk (cleanTextL s.data)).data) = _
  show String.mk (cleanTextL (cleanTextL s.data)) = _
  rw [cleanTextL_idem]
  rfl

lemma length_dropWhile_le (p : Char → Bool) (l : List Char) :
    (l.dropWhile p).length ≤ l.length :=
  (List.dropWhile_sublist p).length_le

lemma findCIAfter_length_le (pat : List Char) :
    ∀ l s, findCIAfter pat l = some s → s.length ≤ l.length := by
  intro l
  induction l with
  | nil => intro s h; simp [findCIAfter] at h
  | cons c r ih =>
    intro s h
    simp only [findCIAfter] at h
    by_cases h1 : ciStartsWith pat (c :: r)
    · rw [if_pos h1] at h
      cases h
      simp [List.length_drop]
    · rw [if_neg h1] at h
      by_cases h2 : c = '\n'
      · rw [if_pos h2] at h
        cases h
      · rw [if_neg h2] at h
        exact Nat.le_trans (ih s h) (by simp)

lemma take4Digits_length {l rest : List Char} (h : take4Digits l = some rest) :
    rest.length + 4 = l.length := by
  match l with
  | a :: b :: d :: e :: r =>
    simp only [take4Digits] at h
    by_cases hd : a.isDigit && b.isDigit && d.isDigit && e.isDigit
    · rw [if_pos hd] at h
      cases h
      simp
    · rw [if_neg hd] at h
      cases h
  | [] => simp [take4Digits] at h
  | [a] => simp [take4Digits] at h
  | [a, b] => simp [take4Digits] at h
  | [a, b, d] => simp [take4Digits] at h

/-! Word counts are invariant under stripping: needed to relate the
12-word emission test (performed on the unstripped accumulator) to the
`word_count` stored for the stripped chunk text. -/

lemma stripRight_eq_rec :
    ∀ l : List Char, (l.reverse.dropWhile isPySpace).reverse = stripRightRec l := by
  intro l
  induction l with
  | nil => rfl
  | cons c r ih =>
    rw [List.reverse_cons, List.dropWhile_append]
    by_cases hs : (r.reverse.dropWhile isPySpace).isEmpty
    · rw [if_pos hs]
      rw [List.isEmpty_iff] at hs
      have hrec : stripRightRec r = [] := by
        rw [← ih, hs]
        rfl
      show (List.dropWhile isPySpace [c]).reverse = stripRightRec (c :: r)
      by_cases hc : isPySpace c
      · simp [stripRightRec, hrec, List.dropWhile_cons, hc]
      · simp [stripRightRec, hrec, List.dropWhile_cons, hc]
    · rw [if_neg hs]
      rw [List.reverse_append]
      have hrec : stripRightRec r ≠ [] := by
        rw [← ih]
        intro h
        rw [List.isEmpty_iff] at hs
        exact hs (by simpa using congrArg List.reverse h)
      show c :: (r.reverse.dropWhile isPySpace).reverse = stripRightRec (c :: r)
      rw [ih]
      simp only [stripRightRec]
      rw [if_neg (by simpa [List.isEmpty_iff] using hrec)]

lemma pyStrip_eq_rec (l : List Char) :
    pyStrip l = stripRightRec (l.dropWhile isPySpace) :=
  stripRight_eq_rec (l.dropWhile isPySpace)

lemma pySplitAux_allSpace :
    ∀ (l : List Char) (cur : List Char), (∀ c ∈ l, isPySpace c = true) →
      pySplitAux cur l = if cur.isEmpty then [] else [cur.reverse] := by
  intro l
  induction l with
  | nil => intro cur _; rfl
  | cons c r ih =>
    intro cur h
    have hc : isPySpace c = true := h c (List.mem_cons_self c r)
    have hr : ∀ x ∈ r, isPySpace x = true := fun x hx => h x (List.mem_cons_of_mem c hx)
    show (if isPySpace c then
        if cur.isEmpty then pySplitAux [] r else cur.reverse :: pySplitAux [] r
      else pySplitAux (c :: cur) r) = _
    rw [if_pos hc]
    have hnil : pySplitAux [] r = [] := by
      rw [ih [] hr]
      rfl
    by_cases hcur : cur.isEmpty
    · rw [if_pos hcur, if_pos hcur, hnil]
    · rw [if_neg hcur, if_neg hcur, hnil]

lemma stripRightRec_nil_allSpace :
    ∀ l : List Char, stripRightRec l = [] → ∀ c ∈ l, isPySpace c = true := by
  intro l
  induction l with
  | nil => intro _ c hc; exact absurd hc (List.not_mem_nil c)
  | cons c r ih =>
    intro h x hx
    simp only [stripRightRec] at h
    by_cases hs : (stripRightRec r).isEmpty
    · rw [if_pos hs] at h
      by_cases hc : isPySpace c
      · rcases List.mem_cons.mp hx with h1 | h2
        · rw [h1]; exact hc
        · exact ih (List.isEmpty_iff.mp hs) x h2
      · rw [if_neg hc] at h
        cases h
    · rw [if_neg hs] at h
      cases h

lemma pySplitAux_stripRightRec :
    ∀ (l : List Char) (cur : List Char),
      pySplitAux cur (stripRightRec l) = pySplitAux cur l := by
  intro l
  induction l with
  | nil => intro cur; rfl
  | cons c r ih =>
    intro cur
    by_cases hs : (stripRightRec r).isEmpty
    · have hall : ∀ x ∈ r, isPySpace x = true :=
        stripRightRec_nil_allSpace r (List.isEmpty_iff.mp hs)
      by_cases hc : isPySpace c
      · have h1 : stripRightRec (c :: r) = [] := by
          simp [stripRightRec, hs, hc]
        rw [h1]
        show (if cur.isEmpty then [] else [cur.reverse]) =
          pySplitAux cur (c :: r)
        show _ = (if isPySpace c then
            if cur.isEmpty then pySplitAux [] r else cur.reverse :: pySplitAux [] r
          else pySplitAux (c :: cur) r)
        rw [if_pos hc]
        have hnil : pySplitAux [] r = [] := by
          rw [pySplitAux_allSpace r [] hall]
          rfl
        by_cases hcur : cur.isEmpty
        · rw [if_pos hcur, if_pos hcur, hnil]
        · rw [if_neg hcur, if_neg hcur, hnil]
      · have h1 : stripRightRec (c :: r) = [c] := by
          simp [stripRightRec, hs, hc]
        rw [h1]
        show pySplitAux cur [c] = pySplitAux cur (c :: r)
        show (if isPySpace c then
            if cur.isEmpty then pySplitAux [] [] else cur.reverse :: pySplitAux [] []
          else pySplitAux (c :: cur) []) = _
        rw [if_neg hc]
        show _ = (if isPySpace c then
            if cur.isEmpty then pySplitAux [] r else cur.reverse :: pySplitAux [] r
          else pySplitAux (c :: cur) r)
        rw [if_neg hc, pySplitAux_allSpace r (c :: cur) hall]
        rfl
    · have h1 : stripRightRec (c :: r) = c :: stripRightRec r := by
        simp only [stripRightRec]
        rw [if_neg hs]
      rw [h1]
      show (if isPySpace c then
          if cur.isEmpty then pySplitAux [] (stripRightRec r)
          else cur.reverse :: pySplitAux [] (stripRightRec r)
        else pySplitAux (c :: cur) (stripRightRec r)) =
        (if isPySpace c then
          if cur.isEmpty then pySplitAux [] r else cur.reverse :: pySplitAux [] r
        else pySplitAux (c :: cur) r)
      rw [ih [], ih (c :: cur)]

lemma pySplit_dropWhile :
    ∀ l : List Char, pySplit (l.dropWhile isPySpace) = pySplit l := by
  intro l
  induction l with
  | nil => rfl
  | cons c r ih =>
    by_cases hc : isPySpace c
    · rw [List.dropWhile_cons, if_pos hc]
      rw [ih]
      show pySplit r = pySplitAux [] (c :: r)
      show _ = (if isPySpace c then
          if ([] : List Char).isEmpty then pySplitAux [] r
          else ([] : List Char).reverse :: pySplitAux [] r
        else pySplitAux [c] r)
      rw [if_pos hc]
      rfl
    · rw [List.dropWhile_cons, if_neg hc]

lemma pyWordCount_pyStrip (l : List Char) :
    pyWordCount (pyStrip l) = pyWordCount l := by
  unfold pyWordCount
  rw [pyStrip_eq_rec]
  show (pySplitAux [] (stripRightRec (l.dropWhile isPySpace))).length = _
  rw [pySplitAux_stripRightRec]
  show (pySplit (l.dropWhile isPySpace)).length = _
  rw [pySplit_dropWhile]

lemma mem_dropLast_filterMap {α β : Type} {f : α → Option β} :
    ∀ {l : List α} {b : β},
      b ∈ (l.filterMap f).dropLast → ∃ a ∈ l.dropLast, f a = some b := by
  intro l
  induction l with
  | nil => intro b h; simp at h
  | cons a l ih =>
    intro b h
    cases hfa : f a with
    | none =>
      rw [List.filterMap_cons, hfa] at h
      rcases ih h with ⟨x, hx, hfx⟩
      have hl : l ≠ [] := by
        intro he
        rw [he] at hx
        simp at hx
      exact ⟨x, by
        rw [List.dropLast_cons_of_ne_nil hl]
        exact List.mem_cons_of_mem a hx, hfx⟩
    | some b' =>
      rw [List.filterMap_cons, hfa] at h
      cases hm : l.filterMap f with
      | nil =>
        rw [hm] at h
        simp at h
      | cons y ys =>
        rw [hm, List.dropLast_cons_of_ne_nil (List.cons_ne_nil y ys)] at h
        have hl : l ≠ [] := by
          intro he
          rw [he] at hm
          simp at hm
        rcases List.mem_cons.mp h with h1 | h2
        · refine ⟨a, ?_, by rw [hfa, h1]⟩
          rw [List.dropLast_cons_of_ne_nil hl]
          exact List.mem_cons_self a l.dropLast
        · rcases ih (by rw [hm]; exact h2) with ⟨x, hx, hfx⟩
          refine ⟨x, ?_, hfx⟩
          rw [List.dropLast_cons_of_ne_nil hl]
          exact List.mem_cons_of_mem a hx

lemma accumChunks_dropLast :
    ∀ (sents : List (List Char)) (current : List Char),
      ∀ t ∈ (accumChunks sents current).dropLast, 12 ≤ pyWordCount t := by
  intro sents
  induction sents with
  | nil =>
    intro current t ht
    have hstep : accumChunks ([] : List (List Char)) current =
        (if (pyStrip current).isEmpty then [] else [pyStrip current]) := rfl
    rw [hstep] at ht
    by_cases h : (pyStrip current).isEmpty
    · rw [if_pos h] at ht
      simp at ht
    · rw [if_neg h, List.dropLast_single] at ht
      simp at ht
  | cons s rest ih =>
    intro current t ht
    have hstep : accumChunks (s :: rest) current =
        (if (pyStrip s).isEmpty || (pyStrip s).length < 5 then accumChunks rest current
         else if 12 ≤ pyWordCount (current ++ pyStrip s ++ ['.', ' ']) then
           pyStrip (current ++ pyStrip s ++ ['.', ' ']) :: accumChunks rest []
         else accumChunks rest (current ++ pyStrip s ++ ['.', ' '])) := rfl
    rw [hstep] at ht
    by_cases h1 : (pyStrip s).isEmpty || (pyStrip s).length < 5
    · rw [if_pos h1] at ht
      exact ih current t ht
    · rw [if_neg h1] at ht
      by_cases h2 : 12 ≤ pyWordCount (current ++ pyStrip s ++ ['.', ' '])
      · rw [if_pos h2] at ht
        cases hm : accumChunks rest ([] : List Char) with
        | nil =>
          rw [hm, List.dropLast_single] at ht
          simp at ht
        | cons y ys =>
          rw [hm, List.dropLast_cons_of_ne_nil (List.cons_ne_nil y ys)] at ht
          rcases List.mem_cons.mp ht with h3 | h4
          · rw [h3, pyWordCount_pyStrip]
            exact h2
          · exact ih [] t (by rw [hm]; exact h4)
      · rw [if_neg h2] at ht
        exact ih (current ++ pyStrip s ++ ['.', ' ']) t ht

/-- C4 counterexample: on this input the segmenter emits a single
remainder chunk whose text is 60 characters long but holds only 6
words, so the claim "every chunk has word_count at least 12 and text
length above 50" fails. -/
theorem split_into_chunks_min_words_cex :
    ¬ (∀ c ∈ _split_into_chunks
        "aaaaaaaaa bbbbbbbbb ccccccccc ddddddddd eeeeeeeee fffffffff",
        12 ≤ c.word_count ∧ 50 < c.text.length) := by
  decide

/-- C4 amended: every chunk emitted by `_split_into_chunks` has text
length above 50 characters, and every chunk except possibly the last
one (the un-accumulated remainder of lines 122-123, which the 12-word
emission test never checked) has at least 12 words. -/
theorem split_into_chunks_bounds (t : String) :
    (∀ c ∈ _split_into_chunks t, 50 < c.text.length) ∧
    (∀ c ∈ (_split_into_chunks t).dropLast, 12 ≤ c.word_count) := by
  constructor
  · intro c hc
    unfold _split_into_chunks at hc
    rcases List.mem_filterMap.mp hc with ⟨a, _, hfa⟩
    by_cases hlen : 50 < a.length
    · rw [if_pos hlen] at hfa
      cases hfa
      exact hlen
    · rw [if_neg hlen] at hfa
      cases hfa
  · intro c hc
    unfold _split_into_chunks at hc
    rcases mem_dropLast_filterMap hc with ⟨a, ha, hfa⟩
    by_cases hlen : 50 < a.length
    · rw [if_pos hlen] at hfa
      cases hfa
      exact accumChunks_dropLast _ [] a ha
    · rw [if_neg hlen] at hfa
      cases hfa

/-- C4 amended, witness: the two-chunk input instantiates both parts of
`split_into_chunks_bounds` with their membership hypotheses discharged
on concrete chunks. -/
theorem split_into_chunks_bounds_witness :
    50 < (TextChunk.mk
      "aaaaaaaaa bbbbbbbbb ccccccccc ddddddddd eeeeeeeee fffffffff." 0 6).text.length ∧
    12 ≤ (TextChunk.mk
      "alpha beta gamma delta epsilon zeta etaa theta iota kappa lambdaa muuu." 0 12).word_count :=
  ⟨(split_into_chunks_bounds
      "aaaaaaaaa bbbbbbbbb ccccccccc ddddddddd eeeeeeeee fffffffff").1 _ (by decide),
   (split_into_chunks_bounds
      "alpha beta gamma delta epsilon zeta etaa theta iota kappa lambdaa muuu. aaaaaaaaa bbbbbbbbb ccccccccc ddddddddd eeeeeeeee fffffffff").2 _ (by decide)⟩

/-- C1: the claim is right and the code is wrong.  On `crashPage` the
second candidate chunk defeats the primary synthesizer and the
fallback; `process_pdf` then evaluates `fallback_qa["question"]` with
`fallback_qa = None` (lines 256-259 carry no `if fallback_qa:` guard,
unlike line 245's guard on the primary result), so the whole run aborts
with a `TypeError` instead of skipping the chunk. -/
theorem process_pdf_aborts_when_both_synths_fail :
    generate_qa_pair_rut5 crashChunkText = none ∧
    create_quality_fallback crashChunkText = none ∧
    process_pdf (.ok [crashPage]) 10 = .error () := by
  refine ⟨by decide, by decide, by decide⟩

/-- C9: when the document cannot be opened or parsed (the pdfplumber
call raises), the `except` branch of `extract_meaningful_text` yields
no chunks and `process_pdf` returns the empty flashcard list for any
`max_cards`, propagating no exception. -/
theorem process_pdf_unreadable_returns_empty (max_cards : Nat) :
    process_pdf (.error ()) max_cards = .ok [] := rfl

lemma processChunks_length_ids :
    ∀ (cands : List TextChunk) (mc : Nat) (acc l : List Flashcard),
      processChunks cands mc acc = .ok l →
      acc.map Flashcard.id = List.range' 1 acc.length →
      l.length ≤ max acc.length mc ∧ l.map Flashcard.id = List.range' 1 l.length := by
  intro cands
  induction cands with
  | nil =>
    intro mc acc l h hacc
    injection h with h1
    subst h1
    exact ⟨Nat.le_max_left _ _, hacc⟩
  | cons c rest ih =>
    intro mc acc l h hacc
    simp only [processChunks] at h
    by_cases hge : mc ≤ acc.length
    · rw [if_pos hge] at h
      injection h with h1
      subst h1
      exact ⟨Nat.le_max_left _ _, hacc⟩
    · rw [if_neg hge] at h
      have hlt : acc.length < mc := Nat.lt_of_not_le hge
      have hstep : ∀ qa : QAPair,
          processChunks rest mc (acc ++ [mkFlashcard (acc.length + 1) qa c]) = .ok l →
          l.length ≤ max acc.length mc ∧ l.map Flashcard.id = List.range' 1 l.length := by
        intro qa hrec
        have hacc2 : (acc ++ [mkFlashcard (acc.length + 1) qa c]).map Flashcard.id =
            List.range' 1 (acc ++ [mkFlashcard (acc.length + 1) qa c]).length := by
          rw [List.map_append, hacc]
          simp only [List.length_append, List.length_singleton, List.map_cons,
            List.map_nil, mkFlashcard]
          rw [List.range'_concat]
          congr 2
          omega
        rcases ih mc _ l hrec hacc2 with ⟨h1, h2⟩
        refine ⟨?_, h2⟩
        rw [List.length_append, List.length_singleton] at h1
        have : max (acc.length + 1) mc = mc := Nat.max_eq_right hlt
        rw [this] at h1
        exact Nat.le_trans h1 (Nat.le_max_right _ _)
      cases hq : generate_qa_pair_rut5 c.text with
      | some qa =>
        rw [hq] at h
        exact hstep qa h
      | none =>
        rw [hq] at h
        cases hf : create_quality_fallback c.text with
        | some qa =>
          rw [hf] at h
          exact hstep qa h
        | none =>
          rw [hf] at h
          exact Except.noConfusion h

/-- C2: whenever `process_pdf` returns a list (any readable or
unreadable document, any `max_cards`), its length is at most
`max_cards` and the flashcard `id`s are exactly `1, 2, ..., k` in
order. -/
theorem process_pdf_count_and_ids (doc : Except Unit (List String)) (max_cards : Nat)
    (l : List Flashcard) (h : process_pdf doc max_cards = .ok l) :
    l.length ≤ max_cards ∧ l.map Flashcard.id = List.range' 1 l.length := by
  simp only [process_pdf] at h
  by_cases he : (extract_meaningful_text doc).isEmpty
  · rw [if_pos he] at h
    injection h with h1
    subst h1
    exact ⟨Nat.zero_le _, rfl⟩
  · rw [if_neg he] at h
    have := processChunks_length_ids _ max_cards [] l h rfl
    simpa using this

/-- C2 witness: the two-page document yields two flashcards with ids
`[1, 2]` within the bound of ten. -/
theorem process_pdf_count_and_ids_witness :
    cardsAB.length ≤ 10 ∧ cardsAB.map Flashcard.id = List.range' 1 cardsAB.length :=
  process_pdf_count_and_ids (.ok [pageA, pageB]) 10 cardsAB (by decide)

/-- C8: line 236 orders the chunks by ascending `abs(word_count - 25)`
and `list.sort` is stable, so the ranked list is a permutation of the
input, sorted by the key, and chunks of any fixed `word_count` (hence
tied keys) keep their original relative order. -/
theorem rank_chunks_stable_sort (l : List TextChunk) :
    (rankChunks l).Perm l ∧
    List.Sorted (fun a b => chunkKey a ≤ chunkKey b) (rankChunks l) ∧
    ∀ w, (rankChunks l).filter (fun c => c.word_count == w) =
      l.filter (fun c => c.word_count == w) := by
  refine ⟨List.perm_insertionSort _ l, ?_, ?_⟩
  · haveI : IsTotal TextChunk (fun a b => chunkKey a ≤ chunkKey b) :=
      ⟨fun a b => Nat.le_total _ _⟩
    haveI : IsTrans TextChunk (fun a b => chunkKey a ≤ chunkKey b) :=
      ⟨fun _ _ _ h1 h2 => Nat.le_trans h1 h2⟩
    exact List.sorted_insertionSort _ l
  · intro w
    have hwc : ∀ x ∈ l.filter (fun c => c.word_count == w), x.word_count = w := by
      intro x hx
      have := (List.mem_filter.mp hx).2
      simpa using this
    have hpw : List.Pairwise (fun a b => chunkKey a ≤ chunkKey b)
        (l.filter (fun c => c.word_count == w)) := by
      refine List.pairwise_of_forall_mem_list ?_
      intro a ha b hb
      rw [show chunkKey a = chunkKey b by rw [chunkKey, chunkKey, hwc a ha, hwc b hb]]
    have hsub : (l.filter (fun c => c.word_count == w)).Sublist (rankChunks l) :=
      List.sublist_insertionSort hpw (List.filter_sublist l)
    have hsub2 : (l.filter (fun c => c.word_count == w)).Sublist
        ((rankChunks l).filter (fun c => c.word_count == w)) := by
      have := List.Sublist.filter (fun c => c.word_count == w) hsub
      rwa [List.filter_eq_self.mpr (fun a ha => by simp [hwc a ha])] at this
    have hlen : (l.filter (fun c => c.word_count == w)).length =
        ((rankChunks l).filter (fun c => c.word_count == w)).length :=
      (((List.perm_insertionSort _ l).filter (fun c => c.word_count == w)).length_eq).symm
    exact (hsub2.eq_of_length hlen).symm

lemma split_into_chunks_page_zero {t : String} {c : TextChunk}
    (hc : c ∈ _split_into_chunks t) : c.page = 0 := by
  unfold _split_into_chunks at hc
  rcases List.mem_filterMap.mp hc with ⟨a, _, hfa⟩
  by_cases hlen : 50 < a.length
  · rw [if_pos hlen] at hfa
    cases hfa
    rfl
  · rw [if_neg hlen] at hfa
    cases hfa

lemma extract_page_zero {doc : Except Unit (List String)} {c : TextChunk}
    (hc : c ∈ extract_meaningful_text doc) : c.page = 0 := by
  match doc with
  | .error _ => exact absurd hc (List.not_mem_nil c)
  | .ok pages =>
    have h1 : c ∈ pages.flatMap pageChunks := (List.mem_filter.mp hc).1
    rcases List.mem_flatMap.mp h1 with ⟨p, _, hp⟩
    unfold pageChunks at hp
    by_cases h2 : p.data.isEmpty
    · rw [if_pos h2] at hp
      exact absurd hp (List.not_mem_nil c)
    · rw [if_neg h2] at hp
      by_cases h3 : (clean_text p).length < 100
      · rw [if_pos h3] at hp
        exact absurd hp (List.not_mem_nil c)
      · rw [if_neg h3] at hp
        rcases List.mem_flatMap.mp hp with ⟨para, _, hpara⟩
        exact split_into_chunks_page_zero hpara

lemma processChunks_forall (P : Flashcard → Prop) :
    ∀ (cands : List TextChunk) (mc : Nat) (acc l : List Flashcard),
      processChunks cands mc acc = .ok l →
      (∀ f ∈ acc, P f) →
      (∀ c ∈ cands, ∀ (qa : QAPair) (n : Nat),
        generate_qa_pair_rut5 c.text = some qa ∨
          create_quality_fallback c.text = some qa →
        P (mkFlashcard n qa c)) →
      ∀ f ∈ l, P f := by
  intro cands
  induction cands with
  | nil =>
    intro mc acc l h hacc _
    injection h with h1
    subst h1
    exact hacc
  | cons c rest ih =>
    intro mc acc l h hacc hmk
    simp only [processChunks] at h
    by_cases hge : mc ≤ acc.length
    · rw [if_pos hge] at h
      injection h with h1
      subst h1
      exact hacc
    · rw [if_neg hge] at h
      have hrest : ∀ c2 ∈ rest, ∀ (qa : QAPair) (n : Nat),
          generate_qa_pair_rut5 c2.text = some qa ∨
            create_quality_fallback c2.text = some qa →
          P (mkFlashcard n qa c2) :=
        fun c2 hc2 => hmk c2 (List.mem_cons_of_mem c hc2)
      cases hq : generate_qa_pair_rut5 c.text with
      | some qa =>
        rw [hq] at h
        refine ih mc _ l h ?_ hrest
        intro f hf
        rcases List.mem_append.mp hf with h1 | h2
        · exact hacc f h1
        · rcases List.mem_singleton.mp h2 with rfl
          exact hmk c (List.mem_cons_self c rest) qa _ (Or.inl hq)
      | none =>
        rw [hq] at h
        cases hf2 : create_quality_fallback c.text with
        | some qa =>
          rw [hf2] at h
          refine ih mc _ l h ?_ hrest
          intro f hf
          rcases List.mem_append.mp hf with h1 | h2
          · exact hacc f h1
          · rcases List.mem_singleton.mp h2 with rfl
            exact hmk c (List.mem_cons_self c rest) qa _ (Or.inr hf2)
        | none =>
          rw [hf2] at h
          exact Except.noConfusion h

/-- C5 amended: every flashcard `process_pdf` returns carries the
constant source label `"Page 0"`: the segmenter hardcodes `page: 0`
for every chunk (line 130, "Не важно для нас"), so the label never
reflects the physical page the chunk came from. -/
theorem flashcard_source_constant (doc : Except Unit (List String)) (max_cards : Nat)
    (l : List Flashcard) (h : process_pdf doc max_cards = .ok l) :
    ∀ f ∈ l, f.source = "Page 0" := by
  simp only [process_pdf] at h
  by_cases he : (extract_meaningful_text doc).isEmpty
  · rw [if_pos he] at h
    injection h with h1
    subst h1
    intro f hf
    exact absurd hf (List.not_mem_nil f)
  · rw [if_neg he] at h
    refine processChunks_forall _ _ max_cards [] l h (by intro f hf; cases hf) ?_
    intro c hc qa n _
    have hpage : c.page = 0 := by
      have h1 : c ∈ rankChunks (extract_meaningful_text doc) :=
        List.mem_of_mem_take hc
      have h2 : c ∈ extract_meaningful_text doc :=
        (List.mem_insertionSort _).mp h1
      exact extract_page_zero h2
    show "Page " ++ toString c.page = "Page 0"
    rw [hpage]
    rfl

/-- C5 amended, witness: the first card of the two-page document, with
the hypotheses discharged on the concrete run. -/
theorem flashcard_source_constant_witness :
    cardA.source = "Page 0" :=
  flashcard_source_constant (.ok [pageA, pageB]) 10 cardsAB (by decide) cardA (by decide)

/-- C5 counterexample: `pageA` alone yields one chunk and
`[pageA, pageB]` yields two, so the second flashcard's chunk was
extracted from the second physical page; yet both flashcards carry the
same label `"Page 0"`, which therefore does not describe the second
card's originating page (under 0- or 1-based numbering alike). -/
theorem flashcard_source_cex :
    (extract_meaningful_text (.ok [pageA])).length = 1 ∧
    (extract_meaningful_text (.ok [pageA, pageB])).length = 2 ∧
    process_pdf (.ok [pageA, pageB]) 10 = .ok cardsAB ∧
    cardsAB.map Flashcard.source = ["Page 0", "Page 0"] := by
  refine ⟨by decide, by decide, by decide, by decide⟩

/-- C3 counterexample: this chunk text contains the token `import`,
yet the primary synthesizer returns a pair for it — the code has no
code-token denylist gate at all. -/
theorem primary_import_gate_cex :
    ¬ (pyInStr "import".data importChunkText.data = true →
        generate_qa_pair_rut5 importChunkText = none) := by
  decide

/-- C3 amended: `generate_qa_pair_rut5` applies no code-token gate, so
a chunk containing `import` is handled by the generic length/sentence/
capitalization gates like any other chunk and can produce a primary
pair, in which case `process_pdf` keeps the primary result and never
consults the fallback: the single flashcard of this run carries the
primary synthesizer's definitional question for the key term
`statement`, not the fallback's template. -/
theorem import_chunk_primary_path :
    pyInStr "import".data importPage.data = true ∧
    (generate_qa_pair_rut5 (importPage ++ ".")).isSome = true ∧
    process_pdf (.ok [importPage]) 10 = .ok
      [{ id := 1,
         question := "Объясните, что такое statement?",
         answer := importPage,
         context := importPage ++ ".",
         source := "Page 0" }] ∧
    (create_quality_fallback (importPage ++ ".")).map QAPair.question ≠
      some "Объясните, что такое statement?" := by
  refine ⟨by decide, by decide, by decide, by decide⟩

lemma data_mk (l : List Char) : (String.mk l).data = l := rfl

lemma length_mk (l : List Char) : (String.mk l).length = l.length := rfl

/-- Shape of every pair the primary synthesizer returns: the context is
the 150-character prefix of the cleaned-and-digit-stripped chunk
prefix, the templated question ends in a question mark, and the answer
passed the 50-character gate of line 176. -/
lemma generate_some_props {t : String} {p : QAPair}
    (h : generate_qa_pair_rut5 t = some p) :
    p.context = String.mk ((primaryCleanL t).take 150) ∧
    p.question.data.getLast? = some '?' ∧
    50 < p.answer.length := by
  simp only [generate_qa_pair_rut5] at h
  split at h
  · exact absurd h (by simp)
  · split at h
    · exact absurd h (by simp)
    · split at h
      · exact absurd h (by simp)
      · split at h
        · exact absurd h (by simp)
        · split at h
          · rename_i hcond
            injection h with h1
            subst h1
            refine ⟨rfl, ?_, ?_⟩
            · rw [data_mk, List.getLast?_append_of_ne_nil _ (by simp),
                List.getLast?_append_of_ne_nil _ (by simp)]
              rfl
            · rw [length_mk]
              exact hcond.2.1
          · exact absurd h (by simp)

/-- Shape of every pair the fallback synthesizer returns: the context
is the 120-character prefix of the cleaned chunk prefix, the templated
question ends in a question mark, and the answer passed the
40-character gate of line 213. -/
lemma fallback_some_props {t : String} {p : QAPair}
    (h : create_quality_fallback t = some p) :
    p.context = String.mk ((cleanTextL (t.data.take 500)).take 120) ∧
    p.question.data.getLast? = some '?' ∧
    40 < p.answer.length := by
  simp only [create_quality_fallback] at h
  split at h
  · exact absurd h (by simp)
  · split at h
    · exact absurd h (by simp)
    · split at h
      · rename_i hcond
        injection h with h1
        subst h1
        refine ⟨rfl, ?_, ?_⟩
        · rw [data_mk, List.getLast?_append_of_ne_nil _ (by simp),
            List.getLast?_append_of_ne_nil _ (by simp)]
          rfl
        · rw [length_mk]
          exact hcond
      · exact absurd h (by simp)

/-- C7 counterexample: on `gradChunkText` the primary synthesizer
returns a pair whose context dropped the standalone `25` (line 142's
digit stripping runs before the truncation of line 181), so the
returned context is not a prefix of the source chunk text. -/
theorem qa_context_not_prefix_cex :
    (generate_qa_pair_rut5 gradChunkText).map QAPair.context =
      some "Gradient descent optimizes parameters iteratively using small careful steps always converging smoothly." ∧
    ("Gradient descent optimizes parameters iteratively using small careful steps always converging smoothly." : String).data.isPrefixOf
      gradChunkText.data = false := by
  refine ⟨by decide, by decide⟩

/-- C7 amended: the context returned with any pair is a bounded-length
prefix of the normalized chunk text, not of the raw chunk text: for the
primary synthesizer the 150-character prefix of the cleaned and
digit-stripped 500-character chunk prefix, for the fallback the
120-character prefix of the cleaned 500-character chunk prefix. -/
theorem qa_context_from_cleaned :
    (∀ (t : String) (p : QAPair), generate_qa_pair_rut5 t = some p →
      p.context.data = (primaryCleanL t).take 150 ∧ p.context.length ≤ 150) ∧
    (∀ (t : String) (p : QAPair), create_quality_fallback t = some p →
      p.context.data = (cleanTextL (t.data.take 500)).take 120 ∧ p.context.length ≤ 120) := by
  constructor
  · intro t p h
    have h1 := (generate_some_props h).1
    rw [h1, data_mk, length_mk, List.length_take]
    exact ⟨rfl, Nat.min_le_left _ _⟩
  · intro t p h
    have h1 := (fallback_some_props h).1
    rw [h1, data_mk, length_mk, List.length_take]
    exact ⟨rfl, Nat.min_le_left _ _⟩

/-- C7 amended, witness: both conjuncts instantiated on concrete runs
of the two synthesizers. -/
theorem qa_context_from_cleaned_witness :
    (gradQa.context.data = (primaryCleanL gradChunkText).take 150 ∧
      gradQa.context.length ≤ 150) ∧
    (mlQa.context.data = (cleanTextL (pageA.data.take 500)).take 120 ∧
      mlQa.context.length ≤ 120) :=
  ⟨qa_context_from_cleaned.1 gradChunkText gradQa (by decide),
   qa_context_from_cleaned.2 pageA mlQa (by decide)⟩

/-- C10: every flashcard `process_pdf` returns carries a question
ending in `?` (both question templates end in `?`) and an answer longer
than the configured minimum: the primary gate requires more than 50
characters, the fallback gate more than 40, so every returned answer
exceeds 40 characters. -/
theorem process_pdf_qa_invariants (doc : Except Unit (List String)) (max_cards : Nat)
    (l : List Flashcard) (h : process_pdf doc max_cards = .ok l) :
    ∀ f ∈ l, f.question.data.getLast? = some '?' ∧ 40 < f.answer.length := by
  simp only [process_pdf] at h
  by_cases he : (extract_meaningful_text doc).isEmpty
  · rw [if_pos he] at h
    injection h with h1
    subst h1
    intro f hf
    exact absurd hf (List.not_mem_nil f)
  · rw [if_neg he] at h
    refine processChunks_forall _ _ max_cards [] l h (by intro f hf; cases hf) ?_
    intro c _ qa n hqa
    rcases hqa with hq | hq
    · have hp := generate_some_props hq
      exact ⟨hp.2.1, Nat.lt_trans (by omega) hp.2.2⟩
    · have hp := fallback_some_props hq
      exact ⟨hp.2.1, hp.2.2⟩

/-- C10 witness: the first card of the two-page run, with both
hypotheses discharged concretely. -/
theorem process_pdf_qa_invariants_witness :
    cardA.question.data.getLast? = some '?' ∧ 40 < cardA.answer.length :=
  process_pdf_qa_invariants (.ok [pageA, pageB]) 10 cardsAB (by decide) cardA (by decide)

end QAGen
